import Mathlib

/-!
Verification development for the music21 tonal key-detection core:
the Krumhansl/Sapp correlation engine (`music21/analysis/keyDetect.py`)
and the key-signature model (`music21/key.py`).

Numeric conventions: Python floats are modelled by exact rationals (ℚ);
all weight-profile constants are exact two-decimal values, and every
comparison proved below holds with margins far above any floating-point
rounding.  Python exceptions are modelled by `Except PyError`; a Python
function that can only return normally is modelled as a total function.
-/

namespace Music21

/-- Python exception kinds raised by the modelled code paths. -/
inductive PyError
  | keySignatureException  -- music21.key.KeySignatureException
  | keyException           -- music21.key.KeyException
  | indexError             -- Python IndexError
  | typeError              -- Python TypeError
deriving DecidableEq

/-! ## Pitch model

`music21/pitch.py` is not part of the sources under review; the claims only
need octave-independent pitches (a diatonic letter step plus an accidental
alteration). -/

/-- Diatonic letter step of a pitch (C, D, E, F, G, A, B). -/
inductive Step
  | C | D | E | F | G | A | B
deriving DecidableEq

/-- Modelled from the spec: `music21.pitch.Pitch`, octave-independent
(`pitch.py` is not under src).  A pitch is a diatonic letter step plus an
accidental alteration in semitones; twelve-tone accidentals have integer
alteration, quarter-tone (microtonal) accidentals do not.  An absent
accidental is identified with alteration 0, which yields the same sharps
count in `pitchToSharps`. -/
structure Pitch where
  step : Step
  alter : ℚ
deriving DecidableEq

/-- Semitone position of each natural letter step within the octave. -/
def stepSemis : Step → ℤ
  | .C => 0 | .D => 2 | .E => 4 | .F => 5 | .G => 7 | .A => 9 | .B => 11

/-- The letter step four diatonic steps above (the letter of the perfect
fifth above). -/
def stepUp4 : Step → Step
  | .C => .G | .D => .A | .E => .B | .F => .C | .G => .D | .A => .E | .B => .F

/-- The letter step four diatonic steps below (the letter of the perfect
fifth below). -/
def stepDown4 : Step → Step
  | .G => .C | .A => .D | .B => .E | .C => .F | .D => .G | .E => .A | .F => .B

/-- The letter step three diatonic steps above (the letter of the perfect
fourth above). -/
def stepUp3 : Step → Step
  | .C => .F | .D => .G | .E => .A | .F => .B | .G => .C | .A => .D | .B => .E

/-- Modelled from the spec: `interval.Interval('P5').transposePitch`
(`interval.py` is not under src).  A perfect fifth up moves four letter
steps up and seven semitones; the accidental alteration absorbs whatever
the letter motion does not cover (spec 4.1: "stepping by a perfect fifth
up ... accumulating accidentals naturally"). -/
def transposeP5Up (p : Pitch) : Pitch :=
  ⟨stepUp4 p.step, p.alter + ((7 - (stepSemis (stepUp4 p.step) - stepSemis p.step) % 12 : ℤ) : ℚ)⟩

/-- Modelled from the spec: `interval.Interval('P-5').transposePitch`
(`interval.py` is not under src).  A perfect fifth down moves four letter
steps down and seven semitones down, the alteration absorbing the rest. -/
def transposeP5Down (p : Pitch) : Pitch :=
  ⟨stepDown4 p.step, p.alter - ((7 - (stepSemis p.step - stepSemis (stepDown4 p.step)) % 12 : ℤ) : ℚ)⟩

/-- Modelled from the spec: `interval.Interval('P4').transposePitch`
(`interval.py` is not under src).  A perfect fourth up moves three letter
steps up and five semitones, the alteration absorbing the rest. -/
def transposeP4Up (p : Pitch) : Pitch :=
  ⟨stepUp3 p.step, p.alter + ((5 - (stepSemis (stepUp3 p.step) - stepSemis p.step) % 12 : ℤ) : ℚ)⟩

/-- Letter name of a step, for stringifying pitches. -/
def stepName : Step → String
  | .C => "C" | .D => "D" | .E => "E" | .F => "F" | .G => "G" | .A => "A" | .B => "B"

/-- Modelled from the spec: music21's pitch stringification (`pitch.py` is
not under src): the letter name followed by one "#" per sharp or one "-"
per flat (spec 8: `KeySignature(3).alteredPitches` stringifies to
`['F#','C#','G#']`, `KeySignature(-3)` to `['B-','E-','A-']`). -/
def pitchName (p : Pitch) : String :=
  stepName p.step ++
    (if 0 < p.alter then String.mk (List.replicate p.alter.num.toNat '#')
     else String.mk (List.replicate (-p.alter.num).toNat '-'))

/-! ## key.py: sharps/pitch converters -/

/-- `fifthsOrder` from key.py line 128: `['F','C','G','D','A','E','B']`. -/
def fifthsOrder : List Step := [.F, .C, .G, .D, .A, .E, .B]

/-- Modes supported by `modeSharpsAlter` in key.py (dictionary keys are
lowercase strings; modelled canonically as an enumeration). -/
inductive Mode
  | major | minor | dorian | phrygian | lydian | mixolydian | locrian
deriving DecidableEq

/-- `modeSharpsAlter` from key.py lines 129-135. -/
def modeSharpsAlter : Mode → ℤ
  | .major => 0 | .minor => -3 | .dorian => -2 | .phrygian => -4
  | .lydian => 1 | .mixolydian => -1 | .locrian => -5

/-- The pitch C with no accidental (`pitch.Pitch('C')`, octave None). -/
def cPitch : Pitch := ⟨Step.C, 0⟩

/-- `sharpsToPitch` from key.py lines 73-122: a `None` sharp count is
treated as 0 ("fix for C major"); otherwise transpose C up (sharps > 0) or
down (sharps < 0) by a perfect fifth `abs(sharpCount)` times.  The
memoization cache `_sharpsToPitchCache` is semantically transparent (the
function is pure) and is not modelled. -/
def sharpsToPitch (sharpCount : Option ℤ) : Pitch :=
  let sc := sharpCount.getD 0
  if 0 < sc then transposeP5Up^[sc.toNat] cPitch
  else if sc < 0 then transposeP5Down^[(-sc).toNat] cPitch
  else cPitch

/-- `pitchToSharps` from key.py lines 138-225, restricted to Pitch input
(the string and Note branches only convert their argument to a Pitch):
`sharps = fifthsOrder.index(step) - 1`; a non-twelve-tone accidental
raises KeyException; otherwise add `7 * int(alter)`; a recognized mode
adds `modeSharpsAlter[mode]`.  An absent accidental is alteration 0, for
which the accidental branch is a no-op. -/
def pitchToSharps (value : Pitch) (mode : Option Mode) : Except PyError ℤ :=
  if value.alter.den ≠ 1 then
    .error .keyException  -- "Cannot determine sharps for quarter-tone keys! silly!"
  else
    let sharps : ℤ := (fifthsOrder.indexOf value.step : ℤ) - 1 + 7 * value.alter.num
    match mode with
    | some m => .ok (sharps + modeSharpsAlter m)
    | none => .ok sharps

/-! ## key.py: KeySignature -/

/-- `KeySignature` from key.py: the constructor stores an optional integer
sharps count (`KeySignature()` leaves it `None`) and an optional mode.
The altered-pitches cache is semantically transparent (it is cleared by
`_attributesChanged` whenever sharps or mode change) and is not
modelled. -/
structure KeySignature where
  sharps : Option ℤ
  mode : Option Mode
deriving DecidableEq

/-- `KeySignature._getPitchAndMode` from key.py lines 416-447: for mode
'minor' the tonic is `sharpsToPitch(self.sharps + 3)` — which in Python
raises TypeError when `self.sharps` is `None` — otherwise
`sharpsToPitch(self.sharps)` (where `None` is accepted and treated
as 0). -/
def getPitchAndMode (ks : KeySignature) : Except PyError (Pitch × Option Mode) :=
  if ks.mode = some Mode.minor then
    match ks.sharps with
    | none => .error .typeError  -- Python: None + 3
    | some s => .ok (sharpsToPitch (some (s + 3)), ks.mode)
  else
    .ok (sharpsToPitch ks.sharps, ks.mode)

/-- `KeySignature._getAlteredPitches` from key.py lines 452-478, as a
function of the (integer) sharps count: for sharps > 0 collect the
successive perfect-fifth-up transpositions of B; for sharps < 0 the
successive perfect-fourth-up transpositions of F; else the empty list.
(The `if self.sharps > 8: pass` statement in the source is a no-op.) -/
def alteredPitches (sharps : ℤ) : List Pitch :=
  if 0 < sharps then
    (List.range sharps.toNat).map (fun i => transposeP5Up^[i + 1] ⟨Step.B, 0⟩)
  else if sharps < 0 then
    (List.range (-sharps).toNat).map (fun i => transposeP4Up^[i + 1] ⟨Step.F, 0⟩)
  else []

/-- `KeySignature.transpose` from key.py lines 601-649.  The interval
argument is modelled by its action `f` on octave-independent pitches
(`interval.py` is not under src).  The returned pair is (the Python return
value, the state of the receiver after the call): with `inPlace=False` the
code deep-copies the receiver, recomputes `post.sharps =
pitchToSharps(p2, mode)` on the copy and returns it, leaving the receiver
untouched; with `inPlace=True` it mutates the receiver and returns
`None`.  The mode attribute is never reassigned. -/
def KeySignature.transpose (ks : KeySignature) (f : Pitch → Pitch) (inPlace : Bool) :
    Except PyError (Option KeySignature × KeySignature) :=
  match getPitchAndMode ks with
  | .error e => .error e
  | .ok (p1, mode) =>
    let p2 := f p1
    match pitchToSharps p2 mode with
    | .error e => .error e
    | .ok s2 =>
      let post : KeySignature := ⟨some s2, ks.mode⟩
      if inPlace then .ok (none, post) else .ok (some post, ks)

/-! ## key.py: Key.tonalCertainty -/

/-- `Key._tonalCertainityCorrelationCoefficient` from key.py lines
888-919, as a function of the key's own `correlationCoefficient` and the
scores of its `alternateInterpretations`: raises KeySignatureException on
an empty alternates list; builds `focus` as the key's own score followed
by the alternate scores that are strictly positive; `focus[1]` raises
IndexError when no alternate score is positive; otherwise returns
`absMagnitude * 1 + leaderSpan * 2` with `absMagnitude = focus[0]` and
`leaderSpan = focus[0] - focus[1]`.  (`meanMagnitude` and
`standardDeviation` are computed by the source but only printed to the
debug log; with `len(focus) >= 1` they cannot fail.)  `tonalCertainty`
with `method='correlationCoefficient'` calls exactly this. -/
def tonalCertainty (correlationCoefficient : ℚ) (alternateScores : List ℚ) :
    Except PyError ℚ :=
  if alternateScores.isEmpty then
    .error .keySignatureException  -- 'cannot process amgiguity without alternative Interpretations'
  else
    let focus := correlationCoefficient :: alternateScores.filter (fun cc => 0 < cc)
    match focus.get? 1 with
    | none => .error .indexError  -- focus[1] out of range
    | some second =>
      .ok (correlationCoefficient * 1 + (correlationCoefficient - second) * 2)

/-! ## keyDetect.py: correlation engine -/

/-- `getWeights` from keyDetect.py lines 37-50: the Sapp major and minor
key profiles (exact two-decimal constants). -/
def getWeights (isMajor : Bool) : List ℚ :=
  if isMajor then
    [6.35, 2.33, 3.48, 2.33, 4.38, 4.09, 2.52, 5.19, 2.39, 3.66, 2.29, 2.88]
  else
    [6.33, 2.68, 3.52, 5.38, 2.60, 3.53, 2.54, 4.75, 3.98, 2.69, 3.34, 3.17]

/-- `convoluteDistribution` from keyDetect.py lines 53-70:
`soln[i] = Σ_j toneWeights[(j + i) % 12] * pcDistribution[j]` for `i` in
0..11 and `j` over the distribution's indices.  Both index expressions are
always in range in the source (`(j + i) % 12 < 12 = len(toneWeights)` and
`j < len(pcDistribution)`), so the `getD` defaults are never used. -/
def convoluteDistribution (pcDistribution : List ℚ) (isMajor : Bool) : List ℚ :=
  let toneWeights := if isMajor then getWeights true else getWeights false
  (List.range 12).map (fun i =>
    (List.range pcDistribution.length).foldl
      (fun acc j => acc + toneWeights.getD ((j + i) % 12) 0 * pcDistribution.getD j 0) 0)

/-- `getLikelyKeys` from keyDetect.py lines 85-98: sort the scores
ascending (Python `sorted`; any correct ascending sort produces the same
value list), reverse, and pair each score with
`Pitch(keyResults.index(score))` — the FIRST index holding that score.
The pitch built from an integer is octave-independent with that pitch
class; it is modelled by the pitch-class number itself.  The source
preallocates `[0]*12` and overwrites slot `i` for each `i <
len(keyResults)`; for the 12-element inputs used by the engine every slot
is overwritten, which is the case modelled here. -/
def getLikelyKeys (keyResults : List ℚ) : List (ℕ × ℚ) :=
  let a := (List.insertionSort (· ≤ ·) keyResults).reverse
  a.map (fun x => (keyResults.indexOf x, x))

/-- `getDifference` from keyDetect.py lines 101-102: the body is `pass`,
so the call returns `None` for every input.  (The commented-in sibling
`getDifferenceDebug` holds the Pearson-style formula but is not called by
the engine.) -/
def getDifference (keyResults pcDistribution : List ℚ) (isMajor : Bool) : Option ℚ :=
  none

/-- `KeyDetect.singleKeyDetect` from keyDetect.py lines 244-275: convolute
against both profiles, rank each, discard the `getDifference` results
(they are `None`), and pick `(likelyKeysMajor[0][0], "Major")` when the
top major score strictly exceeds the top minor score, else
`(likelyKeysMinor[0][0], "Minor")`.  The indexing `[0]` is modelled with a
default that is never used: the ranked lists of a 12-element distribution
are non-empty. -/
def singleKeyDetect (pcDistribution : List ℚ) : ℕ × String :=
  let keyResultsMajor := convoluteDistribution pcDistribution true
  let likelyKeysMajor := getLikelyKeys keyResultsMajor
  let _differenceMajor := getDifference keyResultsMajor pcDistribution true
  let keyResultsMinor := convoluteDistribution pcDistribution false
  let likelyKeysMinor := getLikelyKeys keyResultsMinor
  let _differenceMinor := getDifference keyResultsMinor pcDistribution false
  if (likelyKeysMajor.getD 0 (0, 0)).2 > (likelyKeysMinor.getD 0 (0, 0)).2 then
    ((likelyKeysMajor.getD 0 (0, 0)).1, "Major")
  else
    ((likelyKeysMinor.getD 0 (0, 0)).1, "Minor")

/-! ## keyDetect.py: windowed driver -/

/-- Modelled from the spec: the external score/stream abstraction
(`music21.stream`, not under src; spec 6 "Input distribution source").
`numMeasures` is `len(sStream[0].measures)` and `pcCount start stop pc` is
`getMeasureRange(start, stop).pitchAttributeCount('pitchClass').get(pc)`,
`none` when the pitch class does not occur in the range. -/
structure ScoreModel where
  numMeasures : ℕ
  pcCount : ℕ → ℕ → ℕ → Option ℚ

/-- The 12-element pitch-class distribution a window extracts in
`windowKeyDetect`: `current.get(j)` with `None` replaced by 0. -/
def pcDistOf (work : ScoreModel) (start windowSize : ℕ) : List ℚ :=
  (List.range 12).map (fun j => (work.pcCount start (start + windowSize) j).getD 0)

/-- `KeyDetect.windowKeyDetect` from keyDetect.py lines 189-209: run
`singleKeyDetect` on every window of `windowSize` measures; the window
count is `max - windowSize + 1` computed in ℤ (Python `[0]*n` and
`range(n)` are empty for `n <= 0`). -/
def windowKeyDetect (windowSize : ℕ) (work : ScoreModel) : List (ℕ × String) :=
  (List.range ((work.numMeasures : ℤ) - windowSize + 1).toNat).map
    (fun i => singleKeyDetect (pcDistOf work i windowSize))

/-- `KeyDetect.runKeyDetect` from keyDetect.py lines 157-186 (the live
"key analysis by measure" branch): `solutionMatrix` has
`max - minWindow + 1` slots (empty for a negative count) and slot
`i - minWindow` is `windowKeyDetect(i, sStream)` for `i` from `minWindow`
to `max`; the function prints this matrix, modelled as returning it. -/
def runKeyDetect (work : ScoreModel) (minWindow : ℕ) : List (List (ℕ × String)) :=
  (List.range ((work.numMeasures : ℤ) - minWindow + 1).toNat).map
    (fun k => windowKeyDetect (minWindow + k) work)

/-! ## Claim C10 -/

/-- C10: `sharpsToPitch(None)` does not fail: a `None` sharps count is
treated as 0, so the call returns the pitch C — the same result as
`sharpsToPitch(0)`. -/
theorem sharpsToPitch_none_is_C :
    sharpsToPitch none = cPitch ∧ sharpsToPitch none = sharpsToPitch (some 0) :=
  ⟨rfl, rfl⟩

/-! ## Claim C7 -/

/-- C7: for every 12-element distribution that is uniformly zero or
constant (zero variance), `getDifference` returns the defined
"undetermined" result `None` rather than performing a division by zero —
its body in the source is a bare `pass`, so it returns `None` and divides
nothing. -/
theorem getDifference_constant_undetermined (keyResults d : List ℚ) (isMajor : Bool) (c : ℚ)
    (hlen : d.length = 12) (hconst : ∀ x ∈ d, x = c) :
    getDifference keyResults d isMajor = none :=
  rfl

/-- Witness for C7 at the all-zero 12-element distribution. -/
theorem getDifference_constant_undetermined_witness :
    getDifference [] (List.replicate 12 (0 : ℚ)) true = none :=
  getDifference_constant_undetermined [] (List.replicate 12 0) true 0 (by simp)
    (fun x hx => List.eq_of_mem_replicate hx)

/-! ## Claim C8 -/

/-- C8: over a score of exactly `minWindow` measures `runKeyDetect`
produces a single-element trajectory (one window size with one window),
and over fewer measures than `minWindow` it produces an empty trajectory;
both driver functions are total, so neither case errors. -/
theorem windowDriver_degenerate (work : ScoreModel) (minWindow : ℕ) :
    (work.numMeasures = minWindow →
      (runKeyDetect work minWindow).map List.length = [1]) ∧
    (work.numMeasures < minWindow → runKeyDetect work minWindow = []) := by
  constructor
  · intro h
    have h1 : ((work.numMeasures : ℤ) - minWindow + 1).toNat = 1 := by omega
    have h2 : ((work.numMeasures : ℤ) - (minWindow + 0) + 1).toNat = 1 := by omega
    simp [runKeyDetect, windowKeyDetect, h1, h2, List.range_succ]
  · intro h
    have h1 : ((work.numMeasures : ℤ) - minWindow + 1).toNat = 0 := by omega
    simp [runKeyDetect, h1]

/-- Witness for C8: a two-measure score with window 2 gives one
single-window trajectory; with window 3 it gives an empty trajectory. -/
theorem windowDriver_degenerate_witness :
    (runKeyDetect ⟨2, fun _ _ _ => none⟩ 2).map List.length = [1] ∧
      runKeyDetect ⟨2, fun _ _ _ => none⟩ 3 = [] :=
  ⟨(windowDriver_degenerate ⟨2, fun _ _ _ => none⟩ 2).1 rfl,
   (windowDriver_degenerate ⟨2, fun _ _ _ => none⟩ 3).2 (by norm_num)⟩

/-! ## Claim C6 -/

/-- C6 counterexample: with the non-empty alternate score list `[-1]`
(its only score not positive), `tonalCertainty` raises IndexError at
`focus[1]` even though `alternateInterpretations` is not empty — refuting
"raises an error exactly when alternateInterpretations is empty". -/
theorem tonalCertainty_claim_counterexample :
    ([(-1 : ℚ)] ≠ []) ∧
      tonalCertainty 1 [(-1 : ℚ)] = Except.error PyError.indexError := by
  refine ⟨by simp, ?_⟩
  rfl

/-- C6 amended: `tonalCertainty(method='correlationCoefficient')` raises
KeySignatureException when `alternateInterpretations` is empty, raises
IndexError when no alternate score is strictly positive, and otherwise
returns `top + 2 * (top - s)` where `s` is the first alternate score that
is strictly positive (the second-best candidate's score whenever the
alternates are sorted descending with a positive leader). -/
theorem tonalCertainty_spec (cc : ℚ) (alts : List ℚ) :
    (alts = [] → tonalCertainty cc alts = Except.error PyError.keySignatureException) ∧
    (alts ≠ [] → alts.filter (fun x => 0 < x) = [] →
      tonalCertainty cc alts = Except.error PyError.indexError) ∧
    (∀ s rest, alts ≠ [] → alts.filter (fun x => 0 < x) = s :: rest →
      tonalCertainty cc alts = Except.ok (cc * 1 + (cc - s) * 2)) := by
  refine ⟨?_, ?_, ?_⟩
  · intro h
    simp [tonalCertainty, h]
  · intro h1 h2
    simp [tonalCertainty, h1, h2]
  · intro s rest h1 h2
    simp [tonalCertainty, h1, h2]

/-- Witness for C6 at top score 1 and alternate scores [2]. -/
theorem tonalCertainty_spec_witness :
    tonalCertainty 1 [(2 : ℚ)] = Except.ok (1 * 1 + (1 - 2) * 2) :=
  (tonalCertainty_spec 1 [2]).2.2 2 [] (by simp) (by norm_num)

/-! ## Claim C1 -/

/-- Left folds that accumulate a sum over `List.range` are finite sums. -/
theorem foldl_add_eq_sum (f : ℕ → ℚ) (init : ℚ) (n : ℕ) :
    (List.range n).foldl (fun acc j => acc + f j) init
      = init + ∑ j in Finset.range n, f j := by
  induction n with
  | zero => simp
  | succ n ih =>
    rw [List.range_succ, List.foldl_append, ih, Finset.sum_range_succ]
    simp [add_assoc]

/-- The convolution formula exactly as the specification words it
(spec 4.4): `scores[i] = Σ_j weightProfile[(j - i) mod 12] ×
distribution[j]`, the index difference taken with Python's nonnegative
mod.  This definition follows the spec's words and is compared against
`convoluteDistribution`, which is translated from the source. -/
def convoluteSpecFormula (d : List ℚ) (isMajor : Bool) : List ℚ :=
  (List.range 12).map (fun i =>
    ∑ j in Finset.range d.length,
      (getWeights isMajor).getD ((((j : ℤ) - i) % 12).toNat) 0 * d.getD j 0)

/-- C1 counterexample: on the distribution with a single count at pitch
class 1, score 1 of `convoluteDistribution` is the weight at profile
index 2 (the source uses `(j + i) % 12`), while the claimed formula
yields the weight at profile index 0 — the two disagree. -/
theorem convolute_claim_counterexample :
    (convoluteDistribution [0, 1, 0, 0, 0, 0, 0, 0, 0, 0, 0, 0] true).get? 1
        = some 3.48 ∧
      (convoluteSpecFormula [0, 1, 0, 0, 0, 0, 0, 0, 0, 0, 0, 0] true).get? 1
        = some 6.35 ∧
      ((3.48 : ℚ) ≠ 6.35) := by
  refine ⟨?_, ?_, by norm_num⟩
  · norm_num [convoluteDistribution, getWeights, List.range_succ]
  · norm_num [convoluteSpecFormula, getWeights, List.range_succ, Finset.sum_range_succ]

/-- C1 amended: `convoluteDistribution` returns a 12-element score list
with `scores[i] = Σ_j weightProfile[(j + i) mod 12] × distribution[j]` for
every candidate tonic `i` in 0..11 — the profile is rotated in the
opposite direction from the claimed `(j - i) mod 12`. -/
theorem convolute_matches_shifted_profile (d : List ℚ) (isMajor : Bool)
    (hd : d.length = 12) (i : ℕ) (hi : i < 12) :
    (convoluteDistribution d isMajor).length = 12 ∧
      (convoluteDistribution d isMajor).get? i
        = some (∑ j in Finset.range 12,
            (getWeights isMajor).getD ((j + i) % 12) 0 * d.getD j 0) := by
  have hw : (if isMajor then getWeights true else getWeights false) = getWeights isMajor := by
    cases isMajor <;> rfl
  constructor
  · simp [convoluteDistribution]
  · simp only [convoluteDistribution, hw, hd, List.get?_map, List.get?_range hi,
      Option.map_some']
    rw [foldl_add_eq_sum, zero_add]

/-- Witness for C1 at the all-zero distribution and tonic 0. -/
theorem convolute_matches_shifted_profile_witness :
    (convoluteDistribution (List.replicate 12 (0 : ℚ)) true).length = 12 ∧
      (convoluteDistribution (List.replicate 12 (0 : ℚ)) true).get? 0
        = some (∑ j in Finset.range 12,
            (getWeights true).getD ((j + 0) % 12) 0 * (List.replicate 12 (0 : ℚ)).getD j 0) :=
  convolute_matches_shifted_profile (List.replicate 12 0) true (by simp) 0 (by norm_num)

/-! ## Claim C2 -/

/-- C2: on the C-major-triad distribution `[10,0,0,0,10,0,0,10,0,0,0,0]`
(counts on pitch classes C, E, G), `singleKeyDetect` returns pitch class 0
(= C) with mode "Major". -/
theorem singleKeyDetect_cMajorTriad :
    singleKeyDetect [10, 0, 0, 0, 10, 0, 0, 10, 0, 0, 0, 0] = (0, "Major") := by
  have hM : convoluteDistribution [10, 0, 0, 0, 10, 0, 0, 10, 0, 0, 0, 0] true
      = [159.2, 88.1, 96.6, 98.1, 96.5, 141, 71.4, 115.5, 110.7, 103.7, 98.6, 77.3] := by
    norm_num [convoluteDistribution, getWeights, List.range_succ]
  have hm : convoluteDistribution [10, 0, 0, 0, 10, 0, 0, 10, 0, 0, 0, 0] false
      = [136.8, 101.9, 87.5, 134.7, 97.5, 125.5, 85.6, 114.4, 156.9, 79.7, 103.9, 110.9] := by
    norm_num [convoluteDistribution, getWeights, List.range_succ]
  have hLM : getLikelyKeys
        [159.2, 88.1, 96.6, 98.1, 96.5, 141, 71.4, 115.5, 110.7, 103.7, 98.6, 77.3]
      = [(0, 159.2), (5, 141), (7, 115.5), (8, 110.7), (9, 103.7), (10, 98.6),
         (3, 98.1), (2, 96.6), (4, 96.5), (1, 88.1), (11, 77.3), (6, 71.4)] := by
    norm_num [getLikelyKeys, List.insertionSort, List.orderedInsert, List.indexOf,
      List.findIdx, List.findIdx.go, Bool.cond_eq_ite, beq_iff_eq]
  have hLm : getLikelyKeys
        [136.8, 101.9, 87.5, 134.7, 97.5, 125.5, 85.6, 114.4, 156.9, 79.7, 103.9, 110.9]
      = [(8, 156.9), (0, 136.8), (3, 134.7), (5, 125.5), (7, 114.4), (11, 110.9),
         (10, 103.9), (1, 101.9), (4, 97.5), (2, 87.5), (6, 85.6), (9, 79.7)] := by
    norm_num [getLikelyKeys, List.insertionSort, List.orderedInsert, List.indexOf,
      List.findIdx, List.findIdx.go, Bool.cond_eq_ite, beq_iff_eq]
  rw [singleKeyDetect, hM, hm, hLM, hLm]
  norm_num

/-! ## Claim C3 -/

/-- Index self-map of a duplicate-free list enumerates its positions. -/
theorem map_indexOf_self (l : List ℚ) (h : l.Nodup) :
    l.map (fun x => l.indexOf x) = List.range l.length := by
  refine List.ext_getElem (by simp) ?_
  intro n h1 h2
  simp only [List.getElem_map, List.getElem_range]
  exact List.indexOf_getElem h n (by simpa using h1)

/-- C3 counterexample: on the tied score list `[1,1,0,...,0]`,
`getLikelyKeys` pairs both copies of the tied top score with pitch class 0
(`keyResults.index` returns the first matching index), so pitch class 1
never appears and the output is not a permutation of 0..11 — refuting the
tie-break-by-ascending-index and permutation parts of the claim. -/
theorem getLikelyKeys_claim_counterexample :
    (getLikelyKeys [1, 1, 0, 0, 0, 0, 0, 0, 0, 0, 0, 0]).map Prod.fst
        = [0, 0, 2, 2, 2, 2, 2, 2, 2, 2, 2, 2] ∧
      ¬ ((getLikelyKeys [1, 1, 0, 0, 0, 0, 0, 0, 0, 0, 0, 0]).map Prod.fst).Perm
          (List.range 12) := by
  constructor <;> decide

/-- C3 amended: when the 12 scores are pairwise distinct, `getLikelyKeys`
returns all 12 pitch-class candidates exactly once (a permutation of
0..11) paired with their scores, ordered by descending score; when scores
tie, the output instead repeats the lowest pitch-class index holding each
tied score value, so it is a permutation only in the duplicate-free
case. -/
theorem getLikelyKeys_ranking_of_nodup (l : List ℚ) (hlen : l.length = 12)
    (hnd : l.Nodup) :
    ((getLikelyKeys l).map Prod.fst).Perm (List.range 12) ∧
    ((getLikelyKeys l).map Prod.snd).Pairwise (fun a b => b ≤ a) ∧
    (∀ pr ∈ getLikelyKeys l, l.get? pr.1 = some pr.2) := by
  have hperm : ((List.insertionSort (· ≤ ·) l).reverse).Perm l :=
    (List.reverse_perm _).trans (List.perm_insertionSort _ l)
  refine ⟨?_, ?_, ?_⟩
  · have h1 : (getLikelyKeys l).map Prod.fst
        = ((List.insertionSort (· ≤ ·) l).reverse).map (fun x => l.indexOf x) := by
      simp [getLikelyKeys, List.map_map]
    have h2 := hperm.map (fun x => l.indexOf x)
    rw [map_indexOf_self l hnd, hlen] at h2
    rw [h1]
    exact h2
  · have h1 : (getLikelyKeys l).map Prod.snd = (List.insertionSort (· ≤ ·) l).reverse := by
      simp [getLikelyKeys, List.map_map, Function.comp_def]
    rw [h1, List.pairwise_reverse]
    exact List.sorted_insertionSort _ l
  · intro pr hpr
    simp only [getLikelyKeys, List.mem_map] at hpr
    obtain ⟨x, hx, rfl⟩ := hpr
    have hxl : x ∈ l := hperm.subset hx
    have hlt : l.indexOf x < l.length := List.indexOf_lt_length.mpr hxl
    rw [List.get?_eq_get hlt]
    exact congrArg some (by simpa using List.getElem_indexOf hlt)

/-- Witness for C3 on the duplicate-free score list [11,10,...,1,0]. -/
theorem getLikelyKeys_ranking_of_nodup_witness :
    ((getLikelyKeys [(11 : ℚ), 10, 9, 8, 7, 6, 5, 4, 3, 2, 1, 0]).map Prod.fst).Perm
        (List.range 12) ∧
      ((getLikelyKeys [(11 : ℚ), 10, 9, 8, 7, 6, 5, 4, 3, 2, 1, 0]).map Prod.snd).Pairwise
        (fun a b => b ≤ a) :=
  ⟨(getLikelyKeys_ranking_of_nodup [(11 : ℚ), 10, 9, 8, 7, 6, 5, 4, 3, 2, 1, 0]
      (by decide) (by decide)).1,
   (getLikelyKeys_ranking_of_nodup [(11 : ℚ), 10, 9, 8, 7, 6, 5, 4, 3, 2, 1, 0]
      (by decide) (by decide)).2.1⟩

/-! ## Line-of-fifths closed form for the pitch converters -/

/-- Position `m` on the line of fifths (…, B♭♭ = -2, F = 0, C = 1, G = 2,
…, B = 6, F# = 7, …) as an octave-independent pitch: the letter cycles
through `fifthsOrder` and the alteration grows by one sharp per full
upward cycle of seven (one flat per downward cycle). -/
def pitchOfFifths (m : ℤ) : Pitch :=
  ⟨fifthsOrder.getD (m % 7).toNat Step.F, (((m - m % 7) / 7 : ℤ) : ℚ)⟩

theorem pitchOfFifths_decomp (q r : ℤ) (h0 : 0 ≤ r) (h7 : r < 7) :
    pitchOfFifths (7 * q + r) = ⟨fifthsOrder.getD r.toNat Step.F, (q : ℚ)⟩ := by
  have h1 : (7 * q + r) % 7 = r := by omega
  have h2 : (7 * q + r - r) / 7 = q := by omega
  rw [pitchOfFifths, h1, h2]

theorem transposeP5Up_pitchOfFifths (m : ℤ) :
    transposeP5Up (pitchOfFifths m) = pitchOfFifths (m + 1) := by
  obtain ⟨q, r, h0, h7, rfl⟩ : ∃ q r, 0 ≤ r ∧ r < 7 ∧ m = 7 * q + r :=
    ⟨m / 7, m % 7, by omega, by omega, by omega⟩
  rw [pitchOfFifths_decomp q r h0 h7]
  interval_cases r
  · rw [show (7 * q + 0 + 1 : ℤ) = 7 * q + 1 by ring,
      pitchOfFifths_decomp q 1 (by norm_num) (by norm_num)]
    simp [transposeP5Up, stepUp4, stepSemis, fifthsOrder, Pitch.mk.injEq]
  · rw [show (7 * q + 1 + 1 : ℤ) = 7 * q + 2 by ring,
      pitchOfFifths_decomp q 2 (by norm_num) (by norm_num)]
    simp [transposeP5Up, stepUp4, stepSemis, fifthsOrder, Pitch.mk.injEq]
  · rw [show (7 * q + 2 + 1 : ℤ) = 7 * q + 3 by ring,
      pitchOfFifths_decomp q 3 (by norm_num) (by norm_num)]
    simp [transposeP5Up, stepUp4, stepSemis, fifthsOrder, Pitch.mk.injEq]
  · rw [show (7 * q + 3 + 1 : ℤ) = 7 * q + 4 by ring,
      pitchOfFifths_decomp q 4 (by norm_num) (by norm_num)]
    simp [transposeP5Up, stepUp4, stepSemis, fifthsOrder, Pitch.mk.injEq]
  · rw [show (7 * q + 4 + 1 : ℤ) = 7 * q + 5 by ring,
      pitchOfFifths_decomp q 5 (by norm_num) (by norm_num)]
    simp [transposeP5Up, stepUp4, stepSemis, fifthsOrder, Pitch.mk.injEq]
  · rw [show (7 * q + 5 + 1 : ℤ) = 7 * q + 6 by ring,
      pitchOfFifths_decomp q 6 (by norm_num) (by norm_num)]
    simp [transposeP5Up, stepUp4, stepSemis, fifthsOrder, Pitch.mk.injEq]
  · rw [show (7 * q + 6 + 1 : ℤ) = 7 * (q + 1) + 0 by ring,
      pitchOfFifths_decomp (q + 1) 0 (by norm_num) (by norm_num)]
    simp [transposeP5Up, stepUp4, stepSemis, fifthsOrder, Pitch.mk.injEq]

theorem transposeP5Down_pitchOfFifths (m : ℤ) :
    transposeP5Down (pitchOfFifths m) = pitchOfFifths (m - 1) := by
  obtain ⟨q, r, h0, h7, rfl⟩ : ∃ q r, 0 ≤ r ∧ r < 7 ∧ m = 7 * q + r :=
    ⟨m / 7, m % 7, by omega, by omega, by omega⟩
  rw [pitchOfFifths_decomp q r h0 h7]
  interval_cases r
  · rw [show (7 * q + 0 - 1 : ℤ) = 7 * (q - 1) + 6 by ring,
      pitchOfFifths_decomp (q - 1) 6 (by norm_num) (by norm_num)]
    simp [transposeP5Down, stepDown4, stepSemis, fifthsOrder, Pitch.mk.injEq]
  · rw [show (7 * q + 1 - 1 : ℤ) = 7 * q + 0 by ring,
      pitchOfFifths_decomp q 0 (by norm_num) (by norm_num)]
    simp [transposeP5Down, stepDown4, stepSemis, fifthsOrder, Pitch.mk.injEq]
  · rw [show (7 * q + 2 - 1 : ℤ) = 7 * q + 1 by ring,
      pitchOfFifths_decomp q 1 (by norm_num) (by norm_num)]
    simp [transposeP5Down, stepDown4, stepSemis, fifthsOrder, Pitch.mk.injEq]
  · rw [show (7 * q + 3 - 1 : ℤ) = 7 * q + 2 by ring,
      pitchOfFifths_decomp q 2 (by norm_num) (by norm_num)]
    simp [transposeP5Down, stepDown4, stepSemis, fifthsOrder, Pitch.mk.injEq]
  · rw [show (7 * q + 4 - 1 : ℤ) = 7 * q + 3 by ring,
      pitchOfFifths_decomp q 3 (by norm_num) (by norm_num)]
    simp [transposeP5Down, stepDown4, stepSemis, fifthsOrder, Pitch.mk.injEq]
  · rw [show (7 * q + 5 - 1 : ℤ) = 7 * q + 4 by ring,
      pitchOfFifths_decomp q 4 (by norm_num) (by norm_num)]
    simp [transposeP5Down, stepDown4, stepSemis, fifthsOrder, Pitch.mk.injEq]
  · rw [show (7 * q + 6 - 1 : ℤ) = 7 * q + 5 by ring,
      pitchOfFifths_decomp q 5 (by norm_num) (by norm_num)]
    simp [transposeP5Down, stepDown4, stepSemis, fifthsOrder, Pitch.mk.injEq]

theorem transposeP4Up_pitchOfFifths (m : ℤ) :
    transposeP4Up (pitchOfFifths m) = pitchOfFifths (m - 1) := by
  obtain ⟨q, r, h0, h7, rfl⟩ : ∃ q r, 0 ≤ r ∧ r < 7 ∧ m = 7 * q + r :=
    ⟨m / 7, m % 7, by omega, by omega, by omega⟩
  rw [pitchOfFifths_decomp q r h0 h7]
  interval_cases r
  · rw [show (7 * q + 0 - 1 : ℤ) = 7 * (q - 1) + 6 by ring,
      pitchOfFifths_decomp (q - 1) 6 (by norm_num) (by norm_num)]
    simp [transposeP4Up, stepUp3, stepSemis, fifthsOrder, Pitch.mk.injEq]
    push_cast
    ring
  · rw [show (7 * q + 1 - 1 : ℤ) = 7 * q + 0 by ring,
      pitchOfFifths_decomp q 0 (by norm_num) (by norm_num)]
    simp [transposeP4Up, stepUp3, stepSemis, fifthsOrder, Pitch.mk.injEq]
  · rw [show (7 * q + 2 - 1 : ℤ) = 7 * q + 1 by ring,
      pitchOfFifths_decomp q 1 (by norm_num) (by norm_num)]
    simp [transposeP4Up, stepUp3, stepSemis, fifthsOrder, Pitch.mk.injEq]
  · rw [show (7 * q + 3 - 1 : ℤ) = 7 * q + 2 by ring,
      pitchOfFifths_decomp q 2 (by norm_num) (by norm_num)]
    simp [transposeP4Up, stepUp3, stepSemis, fifthsOrder, Pitch.mk.injEq]
  · rw [show (7 * q + 4 - 1 : ℤ) = 7 * q + 3 by ring,
      pitchOfFifths_decomp q 3 (by norm_num) (by norm_num)]
    simp [transposeP4Up, stepUp3, stepSemis, fifthsOrder, Pitch.mk.injEq]
  · rw [show (7 * q + 5 - 1 : ℤ) = 7 * q + 4 by ring,
      pitchOfFifths_decomp q 4 (by norm_num) (by norm_num)]
    simp [transposeP4Up, stepUp3, stepSemis, fifthsOrder, Pitch.mk.injEq]
  · rw [show (7 * q + 6 - 1 : ℤ) = 7 * q + 5 by ring,
      pitchOfFifths_decomp q 5 (by norm_num) (by norm_num)]
    simp [transposeP4Up, stepUp3, stepSemis, fifthsOrder, Pitch.mk.injEq]

theorem iterate_transposeP5Up_pitchOfFifths (n : ℕ) (m : ℤ) :
    transposeP5Up^[n] (pitchOfFifths m) = pitchOfFifths (m + n) := by
  induction n with
  | zero => simp
  | succ n ih =>
    rw [Function.iterate_succ_apply', ih, transposeP5Up_pitchOfFifths]
    congr 1
    push_cast
    ring

theorem iterate_transposeP5Down_pitchOfFifths (n : ℕ) (m : ℤ) :
    transposeP5Down^[n] (pitchOfFifths m) = pitchOfFifths (m - n) := by
  induction n with
  | zero => simp
  | succ n ih =>
    rw [Function.iterate_succ_apply', ih, transposeP5Down_pitchOfFifths]
    congr 1
    push_cast
    ring

theorem iterate_transposeP4Up_pitchOfFifths (n : ℕ) (m : ℤ) :
    transposeP4Up^[n] (pitchOfFifths m) = pitchOfFifths (m - n) := by
  induction n with
  | zero => simp
  | succ n ih =>
    rw [Function.iterate_succ_apply', ih, transposeP4Up_pitchOfFifths]
    congr 1
    push_cast
    ring

theorem cPitch_eq_pitchOfFifths : cPitch = pitchOfFifths 1 := by
  rw [show (1 : ℤ) = 7 * 0 + 1 by ring, pitchOfFifths_decomp 0 1 (by norm_num) (by norm_num)]
  simp [cPitch, fifthsOrder]

/-- `sharpsToPitch` in closed form: the major tonic for `s` sharps sits at
position `s + 1` on the line of fifths. -/
theorem sharpsToPitch_eq_pitchOfFifths (s : ℤ) :
    sharpsToPitch (some s) = pitchOfFifths (s + 1) := by
  rcases lt_trichotomy 0 s with h | h | h
  · rw [sharpsToPitch]
    simp only [Option.getD_some, if_pos h]
    rw [cPitch_eq_pitchOfFifths, iterate_transposeP5Up_pitchOfFifths]
    congr 1
    omega
  · rw [sharpsToPitch]
    simp only [Option.getD_some, ← h]
    norm_num
    exact cPitch_eq_pitchOfFifths
  · rw [sharpsToPitch]
    simp only [Option.getD_some, if_neg (by omega : ¬ 0 < s), if_pos h]
    rw [cPitch_eq_pitchOfFifths, iterate_transposeP5Down_pitchOfFifths]
    congr 1
    omega

/-! ## Claim C4 -/

/-- C4 counterexample: for the pitch A (no accidental) and mode minor,
`pitchToSharps` gives 0 sharps, and `sharpsToPitch(0)` — the function has
no mode parameter and always returns the relative MAJOR tonic — is C,
which has neither A's step nor its pitch class; the claimed round trip
fails for every supported mode except major. -/
theorem roundTrip_claim_counterexample :
    pitchToSharps ⟨Step.A, 0⟩ (some Mode.minor) = Except.ok 0 ∧
      sharpsToPitch (some 0) = cPitch ∧
      cPitch ≠ (⟨Step.A, 0⟩ : Pitch) := by
  exact ⟨rfl, rfl, by decide⟩

/-- C4 amended: the sharps round trip is exact for mode major: for every
non-microtonal pitch p, `pitchToSharps(p, 'major')` succeeds and
`sharpsToPitch` of the result returns exactly p (same step and same
accidental).  For the other supported modes `sharpsToPitch` — which takes
no mode parameter — returns the relative major tonic of the signature,
not p. -/
theorem sharpsToPitch_pitchToSharps_roundTrip_major (p : Pitch) (h : p.alter.den = 1) :
    ∃ s, pitchToSharps p (some Mode.major) = Except.ok s ∧ sharpsToPitch (some s) = p := by
  obtain ⟨st, al⟩ := p
  simp only at h
  refine ⟨(fifthsOrder.indexOf st : ℤ) - 1 + 7 * al.num, ?_, ?_⟩
  · rw [pitchToSharps, if_neg (by simp [h])]
    simp [modeSharpsAlter]
  · rw [sharpsToPitch_eq_pitchOfFifths,
      show (fifthsOrder.indexOf st : ℤ) - 1 + 7 * al.num + 1
        = 7 * al.num + (fifthsOrder.indexOf st : ℤ) by ring,
      pitchOfFifths_decomp al.num (fifthsOrder.indexOf st : ℤ)
        (by cases st <;> decide) (by cases st <;> decide)]
    rw [Pitch.mk.injEq]
    constructor
    · cases st <;> decide
    · exact (Rat.den_eq_one_iff al).mp h

/-- Witness for C4 at the pitch F-sharp. -/
theorem sharpsToPitch_pitchToSharps_roundTrip_major_witness :
    ∃ s, pitchToSharps ⟨Step.F, 1⟩ (some Mode.major) = Except.ok s ∧
      sharpsToPitch (some s) = ⟨Step.F, 1⟩ :=
  sharpsToPitch_pitchToSharps_roundTrip_major ⟨Step.F, 1⟩ rfl

/-! ## Claim C5 -/

theorem bPitch_eq_pitchOfFifths : (⟨Step.B, 0⟩ : Pitch) = pitchOfFifths 6 := by
  rw [show (6 : ℤ) = 7 * 0 + 6 by ring, pitchOfFifths_decomp 0 6 (by norm_num) (by norm_num)]
  simp [fifthsOrder]

theorem fPitch_eq_pitchOfFifths : (⟨Step.F, 0⟩ : Pitch) = pitchOfFifths 0 := by
  rw [show (0 : ℤ) = 7 * 0 + 0 by ring, pitchOfFifths_decomp 0 0 (by norm_num) (by norm_num)]
  simp [fifthsOrder]

/-- Entry `i` of the sharp list sits at line-of-fifths position `7 + i`. -/
theorem alteredPitches_sharp_entry (i : ℕ) :
    transposeP5Up^[i + 1] (⟨Step.B, 0⟩ : Pitch)
      = ⟨fifthsOrder.getD (i % 7) Step.F, ((1 + i / 7 : ℕ) : ℚ)⟩ := by
  rw [bPitch_eq_pitchOfFifths, iterate_transposeP5Up_pitchOfFifths,
    show (6 + ((i + 1 : ℕ) : ℤ)) = 7 * ((1 + i / 7 : ℕ) : ℤ) + ((i % 7 : ℕ) : ℤ) by
      push_cast
      omega,
    pitchOfFifths_decomp _ _ (by positivity) (by
      have := Nat.mod_lt i (show 0 < 7 by norm_num)
      push_cast
      omega)]
  rw [Pitch.mk.injEq]
  constructor
  · congr 1
  · push_cast
    rw [show ((i : ℤ)) / 7 = ((i / 7 : ℕ) : ℤ) by omega]
    norm_cast

/-- Entry `i` of the flat list sits at line-of-fifths position `-1 - i`. -/
theorem alteredPitches_flat_entry (i : ℕ) :
    transposeP4Up^[i + 1] (⟨Step.F, 0⟩ : Pitch)
      = ⟨fifthsOrder.getD (6 - i % 7) Step.F, (-(1 + i / 7 : ℕ) : ℚ)⟩ := by
  rw [fPitch_eq_pitchOfFifths, iterate_transposeP4Up_pitchOfFifths,
    show (0 - ((i + 1 : ℕ) : ℤ)) = 7 * (-(1 + i / 7 : ℕ) : ℤ) + ((6 - i % 7 : ℕ) : ℤ) by
      have := Nat.mod_lt i (show 0 < 7 by norm_num)
      push_cast [Nat.cast_sub (by omega : i % 7 ≤ 6)]
      omega,
    pitchOfFifths_decomp _ _ (by positivity) (by
      have := Nat.mod_lt i (show 0 < 7 by norm_num)
      push_cast [Nat.cast_sub (by omega : i % 7 ≤ 6)]
      omega)]
  rw [Pitch.mk.injEq]
  constructor
  · congr 1
  · push_cast
    rw [show ((i : ℤ)) / 7 = ((i / 7 : ℕ) : ℤ) by omega]
    norm_cast

/-- C5: for every integer sharps count s, `alteredPitches` has length |s|;
for s > 0 entry i (0-based) is the (i mod 7)-th letter of the cyclic
fifths order F,C,G,D,A,E,B with alteration 1 + i/7 — each letter's next
occurrence one accidental step beyond its previous one, so entry 7 of
`KeySignature(8)` is F## — and `KeySignature(3)` / `KeySignature(-3)`
stringify to ['F#','C#','G#'] and ['B-','E-','A-']. -/
theorem alteredPitches_spec (s : ℤ) :
    (alteredPitches s).length = s.natAbs ∧
    (0 < s → ∀ i, i < s.toNat →
      (alteredPitches s).getD i cPitch
        = ⟨fifthsOrder.getD (i % 7) Step.F, ((1 + i / 7 : ℕ) : ℚ)⟩) ∧
    (alteredPitches 3).map pitchName = ["F#", "C#", "G#"] ∧
    (alteredPitches (-3)).map pitchName = ["B-", "E-", "A-"] := by
  have h3 : alteredPitches 3 = [⟨Step.F, 1⟩, ⟨Step.C, 1⟩, ⟨Step.G, 1⟩] := by
    rw [alteredPitches, if_pos (by norm_num : (0 : ℤ) < 3)]
    rw [show ((3 : ℤ)).toNat = 3 from rfl, show List.range 3 = [0, 1, 2] from rfl]
    simp only [List.map_cons, List.map_nil,
      alteredPitches_sharp_entry 0, alteredPitches_sharp_entry 1, alteredPitches_sharp_entry 2]
    decide
  have hm3 : alteredPitches (-3) = [⟨Step.B, -1⟩, ⟨Step.E, -1⟩, ⟨Step.A, -1⟩] := by
    rw [alteredPitches, if_neg (by norm_num : ¬ (0 : ℤ) < -3),
      if_pos (by norm_num : (-3 : ℤ) < 0)]
    rw [show ((-(-3 : ℤ))).toNat = 3 from rfl, show List.range 3 = [0, 1, 2] from rfl]
    simp only [List.map_cons, List.map_nil,
      alteredPitches_flat_entry 0, alteredPitches_flat_entry 1, alteredPitches_flat_entry 2]
    norm_num [fifthsOrder]
  refine ⟨?_, ?_, ?_, ?_⟩
  · rcases lt_trichotomy 0 s with h | h | h
    · rw [alteredPitches, if_pos h]
      simp
      omega
    · rw [← h]
      rfl
    · rw [alteredPitches, if_neg (by omega : ¬ 0 < s), if_pos h]
      simp
      omega
  · intro hs i hi
    rw [alteredPitches, if_pos hs,
      List.getD_eq_getElem _ _ (by simpa using hi)]
    simp only [List.getElem_map, List.getElem_range]
    exact alteredPitches_sharp_entry i
  · rw [h3]
    decide
  · rw [hm3]
    decide

/-- Witness for C5 at eight sharps: the list has eight entries and the
eighth (index 7) is F-double-sharp. -/
theorem alteredPitches_spec_witness :
    (alteredPitches 8).length = (8 : ℤ).natAbs ∧
      (alteredPitches 8).getD 7 cPitch
        = ⟨fifthsOrder.getD (7 % 7) Step.F, ((1 + 7 / 7 : ℕ) : ℚ)⟩ :=
  ⟨(alteredPitches_spec 8).1,
   (alteredPitches_spec 8).2.1 (by norm_num) 7 (by norm_num)⟩

/-! ## Claim C9 -/

/-- C9 counterexample: `KeySignature()` with mode set to minor but sharps
left at `None` has a set mode, yet `transpose` raises TypeError (the
source computes `self.sharps + 3` on `None`) instead of returning a new
KeySignature — so the claim does not hold for every KeySignature with a
set mode. -/
theorem transpose_claim_counterexample :
    (⟨none, some Mode.minor⟩ : KeySignature).mode = some Mode.minor ∧
      KeySignature.transpose ⟨none, some Mode.minor⟩ id false
        = Except.error PyError.typeError :=
  ⟨rfl, rfl⟩

/-- C9 amended: for every KeySignature with a set mode whose sharps count
is not None when that mode is minor, and every interval action `f` on the
tonic pitch that yields a twelve-tone pitch: `transpose(value,
inPlace=False)` returns a new KeySignature whose mode equals the
original's mode and whose sharps count is `pitchToSharps` of the
transposed tonic with that mode, leaving the receiver's sharps and mode
unchanged; with `inPlace=True` the receiver itself is mutated to those
values and `None` is returned. -/
theorem transpose_spec (ks : KeySignature) (f : Pitch → Pitch)
    (hm : ks.mode.isSome = true)
    (hn : ¬(ks.mode = some Mode.minor ∧ ks.sharps = none)) :
    ∃ p1, getPitchAndMode ks = Except.ok (p1, ks.mode) ∧
      ((f p1).alter.den = 1 →
        ∃ s2, pitchToSharps (f p1) ks.mode = Except.ok s2 ∧
          KeySignature.transpose ks f false = Except.ok (some ⟨some s2, ks.mode⟩, ks) ∧
          KeySignature.transpose ks f true = Except.ok (none, ⟨some s2, ks.mode⟩)) := by
  obtain ⟨m, hmode⟩ := Option.isSome_iff_exists.mp hm
  have hgpm : ∃ p1, getPitchAndMode ks = Except.ok (p1, ks.mode) := by
    by_cases hmin : ks.mode = some Mode.minor
    · rcases hks : ks.sharps with _ | s
      · exact absurd ⟨hmin, hks⟩ hn
      · exact ⟨_, by rw [getPitchAndMode, if_pos hmin, hks]⟩
    · exact ⟨_, by rw [getPitchAndMode, if_neg hmin]⟩
  obtain ⟨p1, hp1⟩ := hgpm
  refine ⟨p1, hp1, ?_⟩
  intro hden
  have hps : pitchToSharps (f p1) ks.mode
      = Except.ok ((fifthsOrder.indexOf (f p1).step : ℤ) - 1
          + 7 * (f p1).alter.num + modeSharpsAlter m) := by
    rw [pitchToSharps, if_neg (by simp [hden]), hmode]
  refine ⟨_, hps, ?_, ?_⟩
  · simp [KeySignature.transpose, hp1, hps]
  · simp [KeySignature.transpose, hp1, hps]

/-- Witness for C9: transposing `KeySignature(2)` (D major) up a perfect
fifth gives `KeySignature(3)` (A major) out of place, and mutates the
receiver to 3 sharps in place — matching the doctest `a = KeySignature(2);
b = a.transpose('p5'); b.sharps == 3`. -/
theorem transpose_spec_witness :
    KeySignature.transpose ⟨some 2, some Mode.major⟩ transposeP5Up false
        = Except.ok (some ⟨some 3, some Mode.major⟩, ⟨some 2, some Mode.major⟩) ∧
      KeySignature.transpose ⟨some 2, some Mode.major⟩ transposeP5Up true
        = Except.ok (none, ⟨some 3, some Mode.major⟩) := by
  obtain ⟨p1, hp1, himp⟩ :=
    transpose_spec ⟨some 2, some Mode.major⟩ transposeP5Up rfl (by simp)
  have hp1v : p1 = sharpsToPitch (some 2) := by
    have : getPitchAndMode ⟨some 2, some Mode.major⟩
        = Except.ok (sharpsToPitch (some 2), some Mode.major) := rfl
    rw [this] at hp1
    exact (Prod.mk.injEq _ _ _ _).mp (Except.ok.inj hp1) |>.1.symm
  have hD : sharpsToPitch (some 2) = ⟨Step.D, 0⟩ := by
    rw [sharpsToPitch_eq_pitchOfFifths,
      show (2 + 1 : ℤ) = 7 * 0 + 3 by ring,
      pitchOfFifths_decomp 0 3 (by norm_num) (by norm_num)]
    simp [fifthsOrder]
  have hA : transposeP5Up p1 = ⟨Step.A, 0⟩ := by
    rw [hp1v, hD]
    norm_num [transposeP5Up, stepUp4, stepSemis]
  obtain ⟨s2, hs2, ht1, ht2⟩ := himp (by rw [hA]; rfl)
  have hs2v : s2 = 3 := by
    have : pitchToSharps (transposeP5Up p1) (some Mode.major) = Except.ok 3 := by
      rw [hA]
      rfl
    rw [this] at hs2
    exact (Except.ok.inj hs2).symm
  rw [hs2v] at ht1 ht2
  exact ⟨ht1, ht2⟩

end Music21
